import Mathlib

/-!
Verification of the vigenere repository: a generic Vigenère cipher engine
(`src/core.rs`) working over indexed symbol sequences, plus a string
convenience wrapper (`src/lib.rs`) with charset validation, key validation
and pass-through of out-of-charset characters.

Modelling conventions:
- Rust `usize` arithmetic is modelled by `Nat` (with Nat truncated
  subtraction matching the `c + n - k` guard pattern in the source).
- Rust slice indexing (which panics out of bounds) is modelled by
  `List.getElem?`, so a function that can panic returns `Option`;
  `none` models a panic.
- Rust `Result<A, String>` is modelled by `Except String A`, with the
  source's exact error message strings.
- Rust `&str` / `String` values are modelled as `List Char` (Rust iterates
  with `.chars()`, i.e. character-oriented).
- The `CipherElement` trait (an `index` accessor used by the engine) is
  modelled by passing the index function explicitly to the generic engine.
-/

/-- Generic cipher engine state from `src/core.rs`: a charset and its
derived modulus. `VigenereCipher::new` sets `modulus = charset.len()`. -/
structure VigenereCipher (T : Type) where
  charset : List T
  modulus : Nat

/-- `VigenereCipher::new`: takes the (nonempty, by the `NonEmptyVec` type
contract) charset and stores `modulus = charset.len()`. -/
def VigenereCipher.new {T : Type} (charset : List T) : VigenereCipher T :=
  { charset := charset, modulus := charset.length }

/-- The loop body of `VigenereCipher::process`, recursing over the input
with the running enumeration counter `i`. Each step looks up
`key[i % key.len()]` and `charset[operation(element.index, key_element.index, modulus)]`;
`none` models the panic of an out-of-bounds index. -/
def VigenereCipher.processFrom {T : Type} (cipher : VigenereCipher T) (idx : T → Nat)
    (key : List T) (operation : Nat → Nat → Nat → Nat) : Nat → List T → Option (List T)
  | _, [] => some []
  | i, element :: rest => do
    let keyElement ← key[i % key.length]?
    let newElement ← cipher.charset[operation (idx element) (idx keyElement) cipher.modulus]?
    let tail ← cipher.processFrom idx key operation (i + 1) rest
    pure (newElement :: tail)

/-- `VigenereCipher::process`: map over the enumerated input. -/
def VigenereCipher.process {T : Type} (cipher : VigenereCipher T) (idx : T → Nat)
    (input key : List T) (operation : Nat → Nat → Nat → Nat) : Option (List T) :=
  cipher.processFrom idx key operation 0 input

/-- `VigenereCipher::encrypt`: `process` with `|m, k, n| (m + k) % n`. -/
def VigenereCipher.encrypt {T : Type} (cipher : VigenereCipher T) (idx : T → Nat)
    (plaintext key : List T) : Option (List T) :=
  cipher.process idx plaintext key (fun m k n => (m + k) % n)

/-- `VigenereCipher::decrypt`: `process` with `|c, k, n| (c + n - k) % n`. -/
def VigenereCipher.decrypt {T : Type} (cipher : VigenereCipher T) (idx : T → Nat)
    (ciphertext key : List T) : Option (List T) :=
  cipher.process idx ciphertext key (fun c k n => (c + n - k) % n)

/-- `CharElement` from `src/lib.rs`: a character together with its charset
index. -/
structure CharElement where
  value : Char
  index : Nat
deriving DecidableEq

/-- `CharElement::new`. -/
def CharElement.new (value : Char) (index : Nat) : CharElement :=
  { value := value, index := index }

/-- `DigitElement` from `src/lib.rs`: wraps a `u8` digit (modelled as
`Nat`); the constructor maintains `value < 10`. -/
structure DigitElement where
  value : Nat
deriving DecidableEq

/-- `DigitElement::new`: `Some` for `value < 10`, `None` otherwise. -/
def DigitElement.new (value : Nat) : Option DigitElement :=
  if value < 10 then some { value := value } else none

/-- Model of `char::from_digit(v, 10)`: the decimal digit character for
`v < 10`, `None` otherwise. -/
def charFromDigit (v : Nat) : Option Char :=
  if v < 10 then some (Char.ofNat (48 + v)) else none

/-- `DigitElement::to_char`: `char::from_digit(value, 10).unwrap()`; the
`unwrap` panic branch (unreachable for constructed digits) is modelled by
a default character. -/
def DigitElement.to_char (d : DigitElement) : Char :=
  (charFromDigit d.value).getD (Char.ofNat 0)

/-- `CipherElement::index` for `DigitElement`: `value as usize`. -/
def DigitElement.index (d : DigitElement) : Nat :=
  d.value

/-- `StringCipher` from `src/lib.rs`. -/
structure StringCipher where
  charset : List CharElement
  modulus : Nat

/-- The apostrophe character, used in the invalid-character error message. -/
def quoteChar : Char := Char.ofNat 39

/-- The error message produced by `StringCipher::parse_string` for a
character `c` absent from the charset. -/
def invalidCharMsg (c : Char) : String :=
  "字符 " ++ String.singleton quoteChar ++ String.singleton c ++
    String.singleton quoteChar ++ " 不在字符集中"

/-- `StringCipher::new`: reject an empty charset, reject a charset whose
distinct-character count (the `HashSet` size in the source) differs from
its length, otherwise build one `CharElement` per character with its
position as index. -/
def StringCipher.new (charset : List Char) : Except String StringCipher :=
  if charset.isEmpty then
    .error "字符集不能为空"
  else if charset.dedup.length ≠ charset.length then
    .error "字符集包含重复字符"
  else
    let cs := charset.enum.map (fun p => CharElement.new p.2 p.1)
    .ok { charset := cs, modulus := cs.length }

/-- `StringCipher::uppercase_alpha`; the `unwrap` panic branch is modelled
by a default (it is unreachable: the charset is valid). -/
def StringCipher.uppercase_alpha : StringCipher :=
  match StringCipher.new "ABCDEFGHIJKLMNOPQRSTUVWXYZ".toList with
  | .ok c => c
  | .error _ => { charset := [], modulus := 0 }

/-- `StringCipher::parse_string`: resolve every character to its
`CharElement`, failing on the first character absent from the charset. -/
def StringCipher.parse_string (c : StringCipher) (s : List Char) :
    Except String (List CharElement) :=
  s.mapM (fun ch =>
    match c.charset.find? (fun elem => elem.value == ch) with
    | some e => Except.ok e
    | none => Except.error (invalidCharMsg ch))

/-- The character loop of `StringCipher::encrypt`, carrying the key cursor
`key_index`. In-charset characters are substituted using
`(elem.index + key_elem.index) % modulus` and advance the cursor;
others are copied unchanged. `none` models an indexing panic. -/
def StringCipher.encryptGo (c : StringCipher) (keyElements : List CharElement) :
    List Char → Nat → Option (List Char)
  | [], _ => some []
  | ch :: rest, keyIndex =>
    match c.charset.find? (fun e => e.value == ch) with
    | some elem => do
      let keyElem ← keyElements[keyIndex % keyElements.length]?
      let newElem ← c.charset[(elem.index + keyElem.index) % c.modulus]?
      let tail ← c.encryptGo keyElements rest (keyIndex + 1)
      pure (newElem.value :: tail)
    | none => do
      let tail ← c.encryptGo keyElements rest keyIndex
      pure (ch :: tail)

/-- `StringCipher::encrypt`: reject an empty key, resolve the key through
`parse_string` (propagating its error), then run the character loop. -/
def StringCipher.encrypt (c : StringCipher) (plaintext key : List Char) :
    Option (Except String (List Char)) :=
  if key.isEmpty then
    some (.error "密钥不能为空")
  else
    match c.parse_string key with
    | .error e => some (.error e)
    | .ok keyElements => (c.encryptGo keyElements plaintext 0).map .ok

/-- The character loop of `StringCipher::decrypt`; identical to the
encrypt loop except for the combining operation
`(elem.index + modulus - key_elem.index) % modulus`. -/
def StringCipher.decryptGo (c : StringCipher) (keyElements : List CharElement) :
    List Char → Nat → Option (List Char)
  | [], _ => some []
  | ch :: rest, keyIndex =>
    match c.charset.find? (fun e => e.value == ch) with
    | some elem => do
      let keyElem ← keyElements[keyIndex % keyElements.length]?
      let newElem ← c.charset[(elem.index + c.modulus - keyElem.index) % c.modulus]?
      let tail ← c.decryptGo keyElements rest (keyIndex + 1)
      pure (newElem.value :: tail)
    | none => do
      let tail ← c.decryptGo keyElements rest keyIndex
      pure (ch :: tail)

/-- `StringCipher::decrypt`: reject an empty key, resolve the key through
`parse_string` (propagating its error), then run the character loop. -/
def StringCipher.decrypt (c : StringCipher) (ciphertext key : List Char) :
    Option (Except String (List Char)) :=
  if key.isEmpty then
    some (.error "密钥不能为空")
  else
    match c.parse_string key with
    | .error e => some (.error e)
    | .ok keyElements => (c.decryptGo keyElements ciphertext 0).map .ok

/-- A concrete two-character cipher used as a witness instance. -/
def abCipher : StringCipher :=
  { charset := [CharElement.new 'A' 0, CharElement.new 'B' 1], modulus := 2 }

/-! ## Generic engine lemmas -/

/-- Key step of the decrypt-after-encrypt computation: the decrypt
operation applied to the encrypt operation's output index recovers the
original index, for in-range indices. -/
lemma dec_enc_index (pm pk n : Nat) (hpm : pm < n) (hpk : pk < n) :
    ((pm + pk) % n + n - pk) % n = pm := by
  have h1 : pk ≤ n := Nat.le_of_lt hpk
  calc ((pm + pk) % n + n - pk) % n
      = ((pm + pk) % n + (n - pk)) % n := by rw [Nat.add_sub_assoc h1]
    _ = (pm + pk + (n - pk)) % n := by rw [Nat.mod_add_mod]
    _ = (pm + n) % n := by rw [Nat.add_assoc, Nat.add_sub_cancel' h1]
    _ = pm % n := Nat.add_mod_right pm n
    _ = pm := Nat.mod_eq_of_lt hpm

/-- Totality and pointwise description of `VigenereCipher.processFrom`:
when the key is non-empty and the operation always lands inside the
charset, it returns a list of the same length whose `i`-th element is
`charset[operation(input[i].index, key[(s+i) % key.len].index, modulus)]`. -/
lemma processFrom_spec {T : Type} (cipher : VigenereCipher T) (idx : T → Nat)
    (key : List T) (op : Nat → Nat → Nat → Nat)
    (hkey : key ≠ [])
    (hop : ∀ m k, op m k cipher.modulus < cipher.charset.length) :
    ∀ (input : List T) (s : Nat), ∃ out,
      cipher.processFrom idx key op s input = some out ∧
      out.length = input.length ∧
      ∀ i mv kv, input[i]? = some mv → key[(s + i) % key.length]? = some kv →
        out[i]? = cipher.charset[op (idx mv) (idx kv) cipher.modulus]? := by
  intro input
  induction input with
  | nil =>
    intro s
    exact ⟨[], rfl, rfl, fun i mv kv hmv _ => by simp at hmv⟩
  | cons m rest ih =>
    intro s
    obtain ⟨tail, htail, hlen, hpt⟩ := ih (s + 1)
    have hkpos : 0 < key.length := List.length_pos.mpr hkey
    have hkm : s % key.length < key.length := Nat.mod_lt _ hkpos
    have hkel : key[s % key.length]? = some (key.get ⟨s % key.length, hkm⟩) := by
      rw [List.getElem?_eq_getElem hkm]
      rfl
    set keyEl := key.get ⟨s % key.length, hkm⟩ with hkeyEl
    have hcs : op (idx m) (idx keyEl) cipher.modulus < cipher.charset.length := hop _ _
    have hnew : cipher.charset[op (idx m) (idx keyEl) cipher.modulus]? =
        some (cipher.charset.get ⟨op (idx m) (idx keyEl) cipher.modulus, hcs⟩) := by
      rw [List.getElem?_eq_getElem hcs]
      rfl
    refine ⟨cipher.charset.get ⟨op (idx m) (idx keyEl) cipher.modulus, hcs⟩ :: tail, ?_, ?_, ?_⟩
    · simp [VigenereCipher.processFrom, hkel, hnew, htail]
    · simpa using hlen
    · intro i mv kv hmv hkv
      match i with
      | 0 =>
        simp only [List.getElem?_cons_zero, Option.some.injEq] at hmv
        subst hmv
        rw [Nat.add_zero, hkel] at hkv
        injection hkv with hkv
        rw [← hkv]
        simp only [List.getElem?_cons_zero]
        exact hnew.symm
      | Nat.succ j =>
        simp only [List.getElem?_cons_succ] at hmv ⊢
        apply hpt j mv kv hmv
        have : s + 1 + j = s + (j + 1) := by omega
        rw [this]
        exact hkv

/-- Round trip of `processFrom`: decrypting (at the same enumeration
counter) what was encrypted recovers the input, when the charset indexes
its elements by position and all input and key elements belong to it. -/
lemma processFrom_roundtrip {T : Type} (S key : List T) (idx : T → Nat)
    (hS : ∀ i : Fin S.length, idx (S.get i) = i.1)
    (hkey : key ≠ []) (hkmem : ∀ x ∈ key, x ∈ S) :
    ∀ (M : List T), (∀ x ∈ M, x ∈ S) → ∀ s : Nat,
      ∃ C, (VigenereCipher.new S).processFrom idx key (fun m k n => (m + k) % n) s M = some C ∧
        (VigenereCipher.new S).processFrom idx key (fun c k n => (c + n - k) % n) s C = some M := by
  intro M
  induction M with
  | nil => exact fun _ s => ⟨[], rfl, rfl⟩
  | cons m rest ih =>
    intro hmem s
    obtain ⟨Ctail, hCt1, hCt2⟩ := ih (fun x hx => hmem x (List.mem_cons_of_mem m hx)) (s + 1)
    have hm : m ∈ S := hmem m (List.mem_cons_self m rest)
    obtain ⟨pmf, hmeq⟩ := List.mem_iff_get.mp hm
    have hidxm : idx m = pmf.1 := by rw [← hmeq]; exact hS pmf
    have hkpos : 0 < key.length := List.length_pos.mpr hkey
    have hkm : s % key.length < key.length := Nat.mod_lt _ hkpos
    have hkel : key[s % key.length]? = some (key.get ⟨s % key.length, hkm⟩) := by
      rw [List.getElem?_eq_getElem hkm]
      rfl
    have hkS : key.get ⟨s % key.length, hkm⟩ ∈ S := hkmem _ (List.get_mem key _ _)
    obtain ⟨pkf, hkeq⟩ := List.mem_iff_get.mp hkS
    have hidxk : idx (key.get ⟨s % key.length, hkm⟩) = pkf.1 := by rw [← hkeq]; exact hS pkf
    have hpm : pmf.1 < S.length := pmf.2
    have hpk2 : pkf.1 < S.length := pkf.2
    have henc : (pmf.1 + pkf.1) % S.length < S.length :=
      Nat.mod_lt _ (Nat.lt_of_le_of_lt (Nat.zero_le _) hpm)
    have hencel : S[(pmf.1 + pkf.1) % S.length]? =
        some (S.get ⟨(pmf.1 + pkf.1) % S.length, henc⟩) := by
      rw [List.getElem?_eq_getElem henc]
      rfl
    have hidxe : idx (S.get ⟨(pmf.1 + pkf.1) % S.length, henc⟩) = (pmf.1 + pkf.1) % S.length :=
      hS _
    have hdec : ((pmf.1 + pkf.1) % S.length + S.length - pkf.1) % S.length = pmf.1 :=
      dec_enc_index _ _ _ hpm hpk2
    have hdecel : S[((pmf.1 + pkf.1) % S.length + S.length - pkf.1) % S.length]? = some m := by
      rw [hdec, List.getElem?_eq_getElem hpm]
      rw [← hmeq]
      rfl
    refine ⟨S.get ⟨(pmf.1 + pkf.1) % S.length, henc⟩ :: Ctail, ?_, ?_⟩
    · simp only [VigenereCipher.processFrom, VigenereCipher.new] at hkel hencel hCt1 ⊢
      rw [hkel]
      simp only [Option.bind_eq_bind, Option.some_bind]
      rw [hidxm, hidxk, hencel]
      simp only [Option.bind_eq_bind, Option.some_bind]
      rw [hCt1]
      rfl
    · simp only [VigenereCipher.processFrom, VigenereCipher.new] at hkel hdecel hCt2 ⊢
      rw [hkel]
      simp only [Option.bind_eq_bind, Option.some_bind]
      rw [hidxe, hidxk, hdecel]
      simp only [Option.bind_eq_bind, Option.some_bind]
      rw [hCt2]
      rfl

/-! ## Claims about the generic engine -/

/-- C1: for every symbol set S whose elements are indexed exactly by their
positions (hence duplicate-free), every non-empty key K of symbols drawn
from S and every sequence M of symbols drawn from S, the generic engine
satisfies `decrypt(encrypt(M, K), K) = M`. -/
theorem generic_encrypt_decrypt_inverse {T : Type} (S key M : List T) (idx : T → Nat)
    (hS : ∀ i : Fin S.length, idx (S.get i) = i.1)
    (hkey : key ≠ []) (hkmem : ∀ x ∈ key, x ∈ S) (hM : ∀ x ∈ M, x ∈ S) :
    ∃ C, (VigenereCipher.new S).encrypt idx M key = some C ∧
      (VigenereCipher.new S).decrypt idx C key = some M := by
  obtain ⟨C, h1, h2⟩ := processFrom_roundtrip S key idx hS hkey hkmem M hM 0
  exact ⟨C, h1, h2⟩

/-- Witness for C1 at a concrete symbol set, key and message. -/
theorem generic_encrypt_decrypt_inverse_witness :
    ∃ C, (VigenereCipher.new [0, 1, 2]).encrypt (fun x => x) [2, 0] [1] = some C ∧
      (VigenereCipher.new [0, 1, 2]).decrypt (fun x => x) C [1] = some [2, 0] :=
  generic_encrypt_decrypt_inverse [0, 1, 2] [1] [2, 0] (fun x => x)
    (by decide) (by decide) (by decide) (by decide)

/-- C2: for every engine built from a non-empty symbol set, every input
and every non-empty key, encrypt outputs at each position `i` the set
element at index `(input[i].index + key[i % key.len].index) % modulus`,
decrypt the one at index
`(input[i].index + modulus - key[i % key.len].index) % modulus`, and both
outputs have the length of the input. -/
theorem generic_encrypt_decrypt_pointwise {T : Type} (charset input key : List T)
    (idx : T → Nat) (hcs : charset ≠ []) (hkey : key ≠ []) :
    (∃ out, (VigenereCipher.new charset).encrypt idx input key = some out ∧
      out.length = input.length ∧
      ∀ i mv kv, input[i]? = some mv → key[i % key.length]? = some kv →
        out[i]? = charset[(idx mv + idx kv) % charset.length]?) ∧
    (∃ out, (VigenereCipher.new charset).decrypt idx input key = some out ∧
      out.length = input.length ∧
      ∀ i mv kv, input[i]? = some mv → key[i % key.length]? = some kv →
        out[i]? = charset[(idx mv + charset.length - idx kv) % charset.length]?) := by
  have hn : 0 < charset.length := List.length_pos.mpr hcs
  constructor
  · obtain ⟨out, ho, hl, hp⟩ := processFrom_spec (VigenereCipher.new charset) idx key
      (fun m k n => (m + k) % n) hkey (fun m k => Nat.mod_lt _ hn) input 0
    refine ⟨out, ho, hl, ?_⟩
    intro i mv kv hmv hkv
    exact hp i mv kv hmv (by rwa [Nat.zero_add])
  · obtain ⟨out, ho, hl, hp⟩ := processFrom_spec (VigenereCipher.new charset) idx key
      (fun c k n => (c + n - k) % n) hkey (fun m k => Nat.mod_lt _ hn) input 0
    refine ⟨out, ho, hl, ?_⟩
    intro i mv kv hmv hkv
    exact hp i mv kv hmv (by rwa [Nat.zero_add])

/-- Witness for C2 at a concrete charset, input and key. -/
theorem generic_encrypt_decrypt_pointwise_witness :
    (∃ out, (VigenereCipher.new [0, 1, 2]).encrypt (fun x => x) [2] [1] = some out ∧
      out.length = [2].length ∧
      ∀ i mv kv, [2][i]? = some mv → [1][i % [1].length]? = some kv →
        out[i]? = [0, 1, 2][(mv + kv) % [0, 1, 2].length]?) ∧
    (∃ out, (VigenereCipher.new [0, 1, 2]).decrypt (fun x => x) [2] [1] = some out ∧
      out.length = [2].length ∧
      ∀ i mv kv, [2][i]? = some mv → [1][i % [1].length]? = some kv →
        out[i]? = [0, 1, 2][(mv + [0, 1, 2].length - kv) % [0, 1, 2].length]?) :=
  generic_encrypt_decrypt_pointwise [0, 1, 2] [2] [1] (fun x => x) (by decide) (by decide)

/-- C10: the generic engine is total for every engine built from a
non-empty symbol set and every non-empty key: both encrypt and decrypt
succeed (no out-of-bounds charset or key access, even for input elements
whose index exceeds the modulus), and every key lookup index
`i % key.len` is below the key length. -/
theorem generic_process_total {T : Type} (charset input key : List T) (idx : T → Nat)
    (hcs : charset ≠ []) (hkey : key ≠ []) :
    (∃ out, (VigenereCipher.new charset).encrypt idx input key = some out) ∧
    (∃ out, (VigenereCipher.new charset).decrypt idx input key = some out) ∧
    (∀ i : Nat, i % key.length < key.length) := by
  have hn : 0 < charset.length := List.length_pos.mpr hcs
  obtain ⟨o1, ho1, -, -⟩ := processFrom_spec (VigenereCipher.new charset) idx key
    (fun m k n => (m + k) % n) hkey (fun m k => Nat.mod_lt _ hn) input 0
  obtain ⟨o2, ho2, -, -⟩ := processFrom_spec (VigenereCipher.new charset) idx key
    (fun c k n => (c + n - k) % n) hkey (fun m k => Nat.mod_lt _ hn) input 0
  exact ⟨⟨o1, ho1⟩, ⟨o2, ho2⟩,
    fun i => Nat.mod_lt _ (List.length_pos.mpr hkey)⟩

/-- Witness for C10 at a concrete engine, with an input element whose
index (9) exceeds the modulus (2). -/
theorem generic_process_total_witness :
    (∃ out, (VigenereCipher.new [5, 7]).encrypt (fun x => x) [9] [7] = some out) ∧
    (∃ out, (VigenereCipher.new [5, 7]).decrypt (fun x => x) [9] [7] = some out) ∧
    (∀ i : Nat, i % [7].length < [7].length) :=
  generic_process_total [5, 7] [9] [7] (fun x => x) (by decide) (by decide)

/-! ## Claims about the element types and the wrapper constructor -/

/-- C9: `DigitElement::new` returns `none` for every value at least 10 and
`some` for every value below 10; a constructed digit's index is the digit
value itself and its character form is the decimal digit character. -/
theorem digitElement_new_spec (v : Nat) :
    (10 ≤ v → DigitElement.new v = none) ∧
    (v < 10 → ∃ d, DigitElement.new v = some d ∧ d.index = v ∧
      d.to_char = Char.ofNat (48 + v)) := by
  constructor
  · intro h
    unfold DigitElement.new
    rw [if_neg (by omega)]
  · intro h
    refine ⟨⟨v⟩, ?_, rfl, ?_⟩
    · unfold DigitElement.new
      rw [if_pos h]
    · simp [DigitElement.to_char, charFromDigit, h]

/-- Witness for C9 at the digit 7 and the rejected value 12. -/
theorem digitElement_new_spec_witness :
    (DigitElement.new 12 = none) ∧
    (∃ d, DigitElement.new 7 = some d ∧ d.index = 7 ∧
      d.to_char = Char.ofNat (48 + 7)) :=
  ⟨(digitElement_new_spec 12).1 (by decide), (digitElement_new_spec 7).2 (by decide)⟩

/-- The source's duplicate check (`HashSet` size versus list length)
succeeds exactly on duplicate-free charsets. -/
lemma dedup_length_eq_iff (l : List Char) : l.dedup.length = l.length ↔ l.Nodup := by
  constructor
  · intro h
    rw [← List.dedup_eq_self]
    exact (List.dedup_sublist l).eq_of_length h
  · intro h
    rw [List.dedup_eq_self.mpr h]

/-- C5: `StringCipher::new` fails with the empty-charset error exactly on
the empty string, fails with the duplicate-charset error on any repeated
character, and otherwise succeeds with one `CharElement` per character,
indexed by position in input order, and modulus equal to the character
count. -/
theorem stringCipher_new_spec (s : List Char) :
    (StringCipher.new s = .error "字符集不能为空" ↔ s = []) ∧
    (s ≠ [] → ¬ s.Nodup → StringCipher.new s = .error "字符集包含重复字符") ∧
    (s ≠ [] → s.Nodup → StringCipher.new s =
      .ok { charset := s.enum.map (fun p => CharElement.new p.2 p.1),
            modulus := s.length }) := by
  have hempty : ∀ h : s ≠ [], s.isEmpty = false := by
    intro h
    cases s with
    | nil => exact absurd rfl h
    | cons a t => rfl
  refine ⟨⟨?_, ?_⟩, ?_, ?_⟩
  · intro h
    by_contra hne
    unfold StringCipher.new at h
    rw [hempty hne] at h
    simp only [Bool.false_eq_true, if_false] at h
    split at h
    · injection h with h
      exact absurd h (by decide)
    · exact Except.noConfusion h
  · intro h
    subst h
    rfl
  · intro hne hnd
    unfold StringCipher.new
    rw [hempty hne]
    simp only [Bool.false_eq_true, if_false]
    rw [if_pos (fun hc => hnd ((dedup_length_eq_iff s).mp hc))]
  · intro hne hnd
    unfold StringCipher.new
    rw [hempty hne]
    simp only [Bool.false_eq_true, if_false]
    rw [if_neg (not_ne_iff.mpr ((dedup_length_eq_iff s).mpr hnd))]
    have hlen : (s.enum.map (fun p => CharElement.new p.2 p.1)).length = s.length := by
      rw [List.length_map, List.enum_length]
    rw [hlen]

/-- Witness for C5: a successful construction from a two-character
charset. -/
theorem stringCipher_new_spec_witness :
    StringCipher.new ['A', 'B'] =
      .ok { charset := (['A', 'B']).enum.map (fun p => CharElement.new p.2 p.1),
            modulus := (['A', 'B']).length } :=
  (stringCipher_new_spec ['A', 'B']).2.2 (by decide) (by decide)

/-! ## Wrapper key validation -/

/-- `parse_string` on the empty string returns the empty element list. -/
lemma parse_string_nil (c : StringCipher) : c.parse_string [] = .ok [] := rfl

/-- One-step unfolding of `parse_string`. -/
lemma parse_string_cons (c : StringCipher) (a : Char) (t : List Char) :
    c.parse_string (a :: t) =
      match c.charset.find? (fun elem => elem.value == a) with
      | some e =>
        match c.parse_string t with
        | .ok es => .ok (e :: es)
        | .error msg => .error msg
      | none => .error (invalidCharMsg a) := by
  unfold StringCipher.parse_string
  rw [List.mapM_cons]
  cases hf : c.charset.find? (fun elem => elem.value == a) with
  | none =>
    simp only [hf]
    rfl
  | some e =>
    simp only [hf]
    cases hp : t.mapM (fun ch =>
        match c.charset.find? (fun elem => elem.value == ch) with
        | some e => Except.ok e
        | none => Except.error (invalidCharMsg ch)) with
    | ok es => rfl
    | error msg => rfl

/-- `parse_string` fails with the invalid-character message of the first
offending character whenever some character of its input is absent from
the charset. -/
lemma parse_string_error_of_bad (c : StringCipher) :
    ∀ s : List Char, (∃ ch, ch ∈ s ∧ c.charset.find? (fun e => e.value == ch) = none) →
      ∃ bad, bad ∈ s ∧ c.charset.find? (fun e => e.value == bad) = none ∧
        c.parse_string s = .error (invalidCharMsg bad) := by
  intro s
  induction s with
  | nil =>
    rintro ⟨ch, hch, -⟩
    cases hch
  | cons a t ih =>
    rintro ⟨ch, hch, hfind⟩
    by_cases ha : c.charset.find? (fun e => e.value == a) = none
    · refine ⟨a, List.mem_cons_self a t, ha, ?_⟩
      rw [parse_string_cons, ha]
    · have hcht : ch ∈ t := by
        cases List.mem_cons.mp hch with
        | inl h => exact absurd (h ▸ hfind) ha
        | inr h => exact h
      obtain ⟨bad, hmem, hbf, hub⟩ := ih ⟨ch, hcht, hfind⟩
      cases hfa : c.charset.find? (fun e => e.value == a) with
      | none => exact absurd hfa ha
      | some e =>
        refine ⟨bad, List.mem_cons_of_mem a hmem, hbf, ?_⟩
        rw [parse_string_cons, hfa, hub]

/-- C4: for every `StringCipher`, both encrypt and decrypt return the
empty-key error whenever the key is empty, and whenever some key
character is absent from the charset they return the invalid-character
error of the first such character — an error result only, for any input
text, with no partial output. -/
theorem string_key_validation (c : StringCipher) (text key : List Char) :
    (key = [] → c.encrypt text key = some (.error "密钥不能为空") ∧
      c.decrypt text key = some (.error "密钥不能为空")) ∧
    ((∃ ch, ch ∈ key ∧ c.charset.find? (fun e => e.value == ch) = none) →
      ∃ bad, bad ∈ key ∧ c.charset.find? (fun e => e.value == bad) = none ∧
        c.encrypt text key = some (.error (invalidCharMsg bad)) ∧
        c.decrypt text key = some (.error (invalidCharMsg bad))) := by
  constructor
  · intro h
    subst h
    exact ⟨rfl, rfl⟩
  · intro hbad
    obtain ⟨bad, hmem, hbf, hperr⟩ := parse_string_error_of_bad c key hbad
    have hne : key.isEmpty = false := by
      cases key with
      | nil => cases hmem
      | cons a t => rfl
    refine ⟨bad, hmem, hbf, ?_, ?_⟩
    · unfold StringCipher.encrypt
      rw [hne]
      simp only [Bool.false_eq_true, if_false]
      rw [hperr]
    · unfold StringCipher.decrypt
      rw [hne]
      simp only [Bool.false_eq_true, if_false]
      rw [hperr]

/-- Witness for C4: the lowercase key is rejected by the uppercase
cipher. -/
theorem string_key_validation_witness :
    ∃ bad, bad ∈ "kY".toList ∧
      StringCipher.uppercase_alpha.charset.find? (fun e => e.value == bad) = none ∧
      StringCipher.uppercase_alpha.encrypt "HELLO".toList "kY".toList =
        some (.error (invalidCharMsg bad)) ∧
      StringCipher.uppercase_alpha.decrypt "HELLO".toList "kY".toList =
        some (.error (invalidCharMsg bad)) :=
  (string_key_validation StringCipher.uppercase_alpha "HELLO".toList "kY".toList).2
    ⟨Char.ofNat 107, by decide, by rfl⟩

/-! ## Wrapper length preservation and concrete scenarios -/

/-- The encrypt loop preserves the character count. -/
lemma encryptGo_length (c : StringCipher) (keyEls : List CharElement) :
    ∀ (text : List Char) (k : Nat) (out : List Char),
      c.encryptGo keyEls text k = some out → out.length = text.length := by
  intro text
  induction text with
  | nil =>
    intro k out h
    injection h with h
    rw [← h]
  | cons ch rest ih =>
    intro k out h
    unfold StringCipher.encryptGo at h
    split at h
    · simp only [Option.bind_eq_bind, Option.bind_eq_some, Option.pure_def,
        Option.some.injEq] at h
      obtain ⟨ke, hke, ne, hne, tl, htl, hout⟩ := h
      rw [← hout]
      simp only [List.length_cons, ih (k + 1) tl htl]
    · simp only [Option.bind_eq_bind, Option.bind_eq_some, Option.pure_def,
        Option.some.injEq] at h
      obtain ⟨tl, htl, hout⟩ := h
      rw [← hout]
      simp only [List.length_cons, ih k tl htl]

/-- The decrypt loop preserves the character count. -/
lemma decryptGo_length (c : StringCipher) (keyEls : List CharElement) :
    ∀ (text : List Char) (k : Nat) (out : List Char),
      c.decryptGo keyEls text k = some out → out.length = text.length := by
  intro text
  induction text with
  | nil =>
    intro k out h
    injection h with h
    rw [← h]
  | cons ch rest ih =>
    intro k out h
    unfold StringCipher.decryptGo at h
    split at h
    · simp only [Option.bind_eq_bind, Option.bind_eq_some, Option.pure_def,
        Option.some.injEq] at h
      obtain ⟨ke, hke, ne, hne, tl, htl, hout⟩ := h
      rw [← hout]
      simp only [List.length_cons, ih (k + 1) tl htl]
    · simp only [Option.bind_eq_bind, Option.bind_eq_some, Option.pure_def,
        Option.some.injEq] at h
      obtain ⟨tl, htl, hout⟩ := h
      rw [← hout]
      simp only [List.length_cons, ih k tl htl]

/-- C6: whenever a wrapper encrypt or decrypt call succeeds, the output
has exactly as many characters as the input text. -/
theorem string_length_preservation (c : StringCipher) (text key out : List Char) :
    (c.encrypt text key = some (.ok out) → out.length = text.length) ∧
    (c.decrypt text key = some (.ok out) → out.length = text.length) := by
  constructor
  · intro h
    unfold StringCipher.encrypt at h
    split at h
    · injection h with h
      exact Except.noConfusion h
    · split at h
      · injection h with h
        exact Except.noConfusion h
      · rename_i keyEls hkeyEls
        simp only [Option.map_eq_some'] at h
        obtain ⟨o, ho, hok⟩ := h
        injection hok with hok
        rw [← hok]
        exact encryptGo_length c keyEls text 0 o ho
  · intro h
    unfold StringCipher.decrypt at h
    split at h
    · injection h with h
      exact Except.noConfusion h
    · split at h
      · injection h with h
        exact Except.noConfusion h
      · rename_i keyEls hkeyEls
        simp only [Option.map_eq_some'] at h
        obtain ⟨o, ho, hok⟩ := h
        injection hok with hok
        rw [← hok]
        exact decryptGo_length c keyEls text 0 o ho

/-- Witness for C6 on a concrete successful encrypt and decrypt. -/
theorem string_length_preservation_witness :
    ("RS".toList).length = ("HI".toList).length ∧
    ("HI".toList).length = ("RS".toList).length :=
  ⟨(string_length_preservation StringCipher.uppercase_alpha
      "HI".toList "K".toList "RS".toList).1 (by rfl),
   (string_length_preservation StringCipher.uppercase_alpha
      "RS".toList "K".toList "HI".toList).2 (by rfl)⟩

/-- C7: with the uppercase charset, `encrypt("HELLO","KEY")` is
`Ok("RIJVS")`, `decrypt("RIJVS","KEY")` is `Ok("HELLO")`, and
`encrypt("HELLO, WORLD!","KEY")` is `Ok("RIJVS, UYVJN!")` with the
punctuation passed through unchanged. -/
theorem uppercase_examples :
    StringCipher.uppercase_alpha.encrypt "HELLO".toList "KEY".toList =
      some (.ok "RIJVS".toList) ∧
    StringCipher.uppercase_alpha.decrypt "RIJVS".toList "KEY".toList =
      some (.ok "HELLO".toList) ∧
    StringCipher.uppercase_alpha.encrypt "HELLO, WORLD!".toList "KEY".toList =
      some (.ok "RIJVS, UYVJN!".toList) :=
  ⟨by rfl, by rfl, by rfl⟩

/-! ## Wrapper pass-through behaviour -/

/-- Inserting a non-charset character anywhere in the encrypt loop's input
inserts it unchanged at the same position of the output and leaves the
key cursor applied to the rest of the text unchanged. -/
lemma encryptGo_insert (c : StringCipher) (keyEls : List CharElement) (ch : Char)
    (hch : c.charset.find? (fun e => e.value == ch) = none) :
    ∀ (t1 t2 : List Char) (k : Nat) (out : List Char),
      c.encryptGo keyEls (t1 ++ t2) k = some out →
      c.encryptGo keyEls (t1 ++ ch :: t2) k =
        some (out.take t1.length ++ ch :: out.drop t1.length) := by
  intro t1
  induction t1 with
  | nil =>
    intro t2 k out h
    simp only [List.nil_append] at h ⊢
    unfold StringCipher.encryptGo
    rw [hch]
    simp [h]
  | cons a t ih =>
    intro t2 k out h
    simp only [List.cons_append] at h ⊢
    unfold StringCipher.encryptGo at h ⊢
    cases hf : c.charset.find? (fun e => e.value == a) with
    | some elem =>
      rw [hf] at h
      simp only [Option.bind_eq_bind, Option.bind_eq_some, Option.pure_def,
        Option.some.injEq] at h
      obtain ⟨ke, hke, ne, hne, tl, htl, hout⟩ := h
      have htl2 := ih t2 (k + 1) tl htl
      simp only [hf]
      rw [← hout]
      simp [hke, hne, htl2]
    | none =>
      rw [hf] at h
      simp only [Option.bind_eq_bind, Option.bind_eq_some, Option.pure_def,
        Option.some.injEq] at h
      obtain ⟨tl, htl, hout⟩ := h
      have htl2 := ih t2 k tl htl
      simp only [hf]
      rw [← hout]
      simp [htl2]

/-- Same insertion property for the decrypt loop. -/
lemma decryptGo_insert (c : StringCipher) (keyEls : List CharElement) (ch : Char)
    (hch : c.charset.find? (fun e => e.value == ch) = none) :
    ∀ (t1 t2 : List Char) (k : Nat) (out : List Char),
      c.decryptGo keyEls (t1 ++ t2) k = some out →
      c.decryptGo keyEls (t1 ++ ch :: t2) k =
        some (out.take t1.length ++ ch :: out.drop t1.length) := by
  intro t1
  induction t1 with
  | nil =>
    intro t2 k out h
    simp only [List.nil_append] at h ⊢
    unfold StringCipher.decryptGo
    rw [hch]
    simp [h]
  | cons a t ih =>
    intro t2 k out h
    simp only [List.cons_append] at h ⊢
    unfold StringCipher.decryptGo at h ⊢
    cases hf : c.charset.find? (fun e => e.value == a) with
    | some elem =>
      rw [hf] at h
      simp only [Option.bind_eq_bind, Option.bind_eq_some, Option.pure_def,
        Option.some.injEq] at h
      obtain ⟨ke, hke, ne, hne, tl, htl, hout⟩ := h
      have htl2 := ih t2 (k + 1) tl htl
      simp only [hf]
      rw [← hout]
      simp [hke, hne, htl2]
    | none =>
      rw [hf] at h
      simp only [Option.bind_eq_bind, Option.bind_eq_some, Option.pure_def,
        Option.some.injEq] at h
      obtain ⟨tl, htl, hout⟩ := h
      have htl2 := ih t2 k tl htl
      simp only [hf]
      rw [← hout]
      simp [htl2]

/-- C3: for both encrypt and decrypt, an input character absent from the
charset is copied unchanged to the output at its own position and does
not advance the key cursor: the output for `t1 ++ [ch] ++ t2` is the
output for `t1 ++ t2` with `ch` inserted at position `len(t1)`, so the
key material applied to `t2` is unshifted. -/
theorem string_passthrough (c : StringCipher) (t1 t2 key : List Char) (ch : Char)
    (hch : c.charset.find? (fun e => e.value == ch) = none) :
    (∀ out, c.encrypt (t1 ++ t2) key = some (.ok out) →
      c.encrypt (t1 ++ ch :: t2) key =
        some (.ok (out.take t1.length ++ ch :: out.drop t1.length))) ∧
    (∀ out, c.decrypt (t1 ++ t2) key = some (.ok out) →
      c.decrypt (t1 ++ ch :: t2) key =
        some (.ok (out.take t1.length ++ ch :: out.drop t1.length))) := by
  constructor
  · intro out h
    unfold StringCipher.encrypt at h ⊢
    by_cases hk : key.isEmpty = true
    · rw [if_pos hk] at h
      injection h with h
      exact Except.noConfusion h
    · rw [if_neg hk] at h ⊢
      cases hp : c.parse_string key with
      | error e =>
        simp only [hp] at h
        injection h with h
        exact Except.noConfusion h
      | ok keyEls =>
        simp only [hp] at h ⊢
        simp only [Option.map_eq_some'] at h
        obtain ⟨o, ho, hok⟩ := h
        injection hok with hok
        rw [encryptGo_insert c keyEls ch hch t1 t2 0 o ho, hok]
        rfl
  · intro out h
    unfold StringCipher.decrypt at h ⊢
    by_cases hk : key.isEmpty = true
    · rw [if_pos hk] at h
      injection h with h
      exact Except.noConfusion h
    · rw [if_neg hk] at h ⊢
      cases hp : c.parse_string key with
      | error e =>
        simp only [hp] at h
        injection h with h
        exact Except.noConfusion h
      | ok keyEls =>
        simp only [hp] at h ⊢
        simp only [Option.map_eq_some'] at h
        obtain ⟨o, ho, hok⟩ := h
        injection hok with hok
        rw [decryptGo_insert c keyEls ch hch t1 t2 0 o ho, hok]
        rfl

/-- Witness for C3: a comma inserted in the middle of a two-letter text
is passed through by the uppercase cipher, for encrypt and decrypt. -/
theorem string_passthrough_witness :
    StringCipher.uppercase_alpha.encrypt (['H'] ++ ',' :: ['I']) ("K".toList) =
      some (.ok (("RS".toList).take (['H'] : List Char).length ++
        ',' :: ("RS".toList).drop (['H'] : List Char).length)) ∧
    StringCipher.uppercase_alpha.decrypt (['R'] ++ ',' :: ['S']) ("K".toList) =
      some (.ok (("HI".toList).take (['R'] : List Char).length ++
        ',' :: ("HI".toList).drop (['R'] : List Char).length)) :=
  ⟨(string_passthrough StringCipher.uppercase_alpha ['H'] ['I'] ("K".toList) ','
      (by rfl)).1 ("RS".toList) (by rfl),
   (string_passthrough StringCipher.uppercase_alpha ['R'] ['S'] ("K".toList) ','
      (by rfl)).2 ("HI".toList) (by rfl)⟩

/-! ## Wrapper refines the generic engine -/

/-- A successfully constructed `StringCipher` has the position-indexed
charset, the modulus equal to its size, and a non-empty charset. -/
lemma stringCipher_new_ok {s : List Char} {sc : StringCipher}
    (h : StringCipher.new s = .ok sc) :
    sc.charset = s.enum.map (fun p => CharElement.new p.2 p.1) ∧
    sc.modulus = sc.charset.length ∧ sc.charset ≠ [] := by
  unfold StringCipher.new at h
  split at h
  · exact Except.noConfusion h
  · split at h
    · exact Except.noConfusion h
    · rename_i hie hdup
      injection h with h
      have hs : s ≠ [] := by
        intro hnil
        rw [hnil] at hie
        exact hie rfl
      refine ⟨by rw [← h], by rw [← h], ?_⟩
      rw [← h]
      intro hnil
      have hlen := congrArg List.length hnil
      simp only [List.length_map, List.enum_length, List.length_nil] at hlen
      exact hs (List.eq_nil_of_length_eq_zero hlen)

/-- `parse_string` preserves the character count. -/
lemma parse_string_length (c : StringCipher) :
    ∀ (s : List Char) (es : List CharElement),
      c.parse_string s = .ok es → es.length = s.length := by
  intro s
  induction s with
  | nil =>
    intro es h
    rw [parse_string_nil] at h
    injection h with h
    rw [← h]
    rfl
  | cons a t ih =>
    intro es h
    rw [parse_string_cons] at h
    cases hf : c.charset.find? (fun elem => elem.value == a) with
    | none =>
      rw [hf] at h
      exact Except.noConfusion h
    | some e =>
      rw [hf] at h
      cases hp : c.parse_string t with
      | error m =>
        rw [hp] at h
        exact Except.noConfusion h
      | ok es2 =>
        rw [hp] at h
        injection h with h
        rw [← h]
        simp [ih es2 hp]

/-- On all-in-charset text the encrypt loop computes exactly the generic
engine's `processFrom` with the addition operation, read back through
`CharElement.value`. -/
lemma encryptGo_refines (c : StringCipher) (hwf : c.modulus = c.charset.length)
    (keyEls : List CharElement) :
    ∀ (text : List Char) (tes : List CharElement),
      c.parse_string text = .ok tes → ∀ k,
      c.encryptGo keyEls text k =
        ((VigenereCipher.new c.charset).processFrom CharElement.index keyEls
          (fun m kk n => (m + kk) % n) k tes).map (List.map CharElement.value) := by
  intro text
  induction text with
  | nil =>
    intro tes h k
    rw [parse_string_nil] at h
    injection h with h
    rw [← h]
    rfl
  | cons a t ih =>
    intro tes h k
    rw [parse_string_cons] at h
    cases hf : c.charset.find? (fun elem => elem.value == a) with
    | none =>
      rw [hf] at h
      exact Except.noConfusion h
    | some elem =>
      rw [hf] at h
      cases hp : c.parse_string t with
      | error m =>
        rw [hp] at h
        exact Except.noConfusion h
      | ok es =>
        rw [hp] at h
        injection h with h
        rw [← h]
        unfold StringCipher.encryptGo
        simp only [hf]
        rw [hwf]
        cases hke : keyEls[k % keyEls.length]? with
        | none =>
          simp [VigenereCipher.processFrom, hke]
        | some ke =>
          cases hne : c.charset[(elem.index + ke.index) % c.charset.length]? with
          | none =>
            simp [VigenereCipher.processFrom, VigenereCipher.new, hke, hne]
          | some ne =>
            have hrec := ih es hp (k + 1)
            cases hpf : (VigenereCipher.new c.charset).processFrom CharElement.index keyEls
                (fun m kk n => (m + kk) % n) (k + 1) es with
            | none =>
              rw [hpf] at hrec
              simp only [VigenereCipher.new] at hpf
              simp [VigenereCipher.processFrom, VigenereCipher.new, hke, hne, hrec, hpf]
            | some tl =>
              rw [hpf] at hrec
              simp only [VigenereCipher.new] at hpf
              simp [VigenereCipher.processFrom, VigenereCipher.new, hke, hne, hrec, hpf]

/-- On all-in-charset text the decrypt loop computes exactly the generic
engine's `processFrom` with the subtraction operation, read back through
`CharElement.value`. -/
lemma decryptGo_refines (c : StringCipher) (hwf : c.modulus = c.charset.length)
    (keyEls : List CharElement) :
    ∀ (text : List Char) (tes : List CharElement),
      c.parse_string text = .ok tes → ∀ k,
      c.decryptGo keyEls text k =
        ((VigenereCipher.new c.charset).processFrom CharElement.index keyEls
          (fun cc kk n => (cc + n - kk) % n) k tes).map (List.map CharElement.value) := by
  intro text
  induction text with
  | nil =>
    intro tes h k
    rw [parse_string_nil] at h
    injection h with h
    rw [← h]
    rfl
  | cons a t ih =>
    intro tes h k
    rw [parse_string_cons] at h
    cases hf : c.charset.find? (fun elem => elem.value == a) with
    | none =>
      rw [hf] at h
      exact Except.noConfusion h
    | some elem =>
      rw [hf] at h
      cases hp : c.parse_string t with
      | error m =>
        rw [hp] at h
        exact Except.noConfusion h
      | ok es =>
        rw [hp] at h
        injection h with h
        rw [← h]
        unfold StringCipher.decryptGo
        simp only [hf]
        rw [hwf]
        cases hke : keyEls[k % keyEls.length]? with
        | none =>
          simp [VigenereCipher.processFrom, hke]
        | some ke =>
          cases hne : c.charset[(elem.index + c.charset.length - ke.index) % c.charset.length]? with
          | none =>
            simp [VigenereCipher.processFrom, VigenereCipher.new, hke, hne]
          | some ne =>
            have hrec := ih es hp (k + 1)
            cases hpf : (VigenereCipher.new c.charset).processFrom CharElement.index keyEls
                (fun cc kk n => (cc + n - kk) % n) (k + 1) es with
            | none =>
              rw [hpf] at hrec
              simp only [VigenereCipher.new] at hpf
              simp [VigenereCipher.processFrom, VigenereCipher.new, hke, hne, hrec, hpf]
            | some tl =>
              rw [hpf] at hrec
              simp only [VigenereCipher.new] at hpf
              simp [VigenereCipher.processFrom, VigenereCipher.new, hke, hne, hrec, hpf]

/-- C8: for a validly constructed wrapper, all-in-charset text and a valid
non-empty key, the wrapper's encrypt and decrypt produce exactly the
strings obtained by parsing text and key into symbols, running the
generic engine, and reading back the resulting symbols' characters. -/
theorem string_refines_generic (s text key : List Char) (sc : StringCipher)
    (tes kes : List CharElement)
    (hnew : StringCipher.new s = .ok sc)
    (htext : sc.parse_string text = .ok tes)
    (hkey : sc.parse_string key = .ok kes)
    (hkne : key ≠ []) :
    (∃ encEls, (VigenereCipher.new sc.charset).encrypt CharElement.index tes kes =
        some encEls ∧
      sc.encrypt text key = some (.ok (encEls.map CharElement.value))) ∧
    (∃ decEls, (VigenereCipher.new sc.charset).decrypt CharElement.index tes kes =
        some decEls ∧
      sc.decrypt text key = some (.ok (decEls.map CharElement.value))) := by
  obtain ⟨hcs, hwf, hcne⟩ := stringCipher_new_ok hnew
  have hkesne : kes ≠ [] := by
    intro hnil
    have hl := parse_string_length sc key kes hkey
    rw [hnil] at hl
    exact hkne (List.eq_nil_of_length_eq_zero hl.symm)
  have hkemp : key.isEmpty = false := by
    cases key with
    | nil => exact absurd rfl hkne
    | cons a t => rfl
  have hn : 0 < sc.charset.length := List.length_pos.mpr hcne
  constructor
  · obtain ⟨out, ho, -, -⟩ := processFrom_spec (VigenereCipher.new sc.charset)
      CharElement.index kes (fun m kk n => (m + kk) % n) hkesne
      (fun m kk => Nat.mod_lt _ hn) tes 0
    refine ⟨out, ho, ?_⟩
    unfold StringCipher.encrypt
    rw [hkemp]
    simp only [Bool.false_eq_true, if_false]
    simp only [hkey]
    rw [encryptGo_refines sc hwf kes text tes htext 0]
    rw [ho]
    rfl
  · obtain ⟨out, ho, -, -⟩ := processFrom_spec (VigenereCipher.new sc.charset)
      CharElement.index kes (fun cc kk n => (cc + n - kk) % n) hkesne
      (fun m kk => Nat.mod_lt _ hn) tes 0
    refine ⟨out, ho, ?_⟩
    unfold StringCipher.decrypt
    rw [hkemp]
    simp only [Bool.false_eq_true, if_false]
    simp only [hkey]
    rw [decryptGo_refines sc hwf kes text tes htext 0]
    rw [ho]
    rfl

/-- Witness for C8 on the charset AB, text AB and key B. -/
theorem string_refines_generic_witness :
    (∃ encEls,
      (VigenereCipher.new abCipher.charset).encrypt CharElement.index
        [CharElement.new 'A' 0, CharElement.new 'B' 1] [CharElement.new 'B' 1] =
        some encEls ∧
      abCipher.encrypt "AB".toList "B".toList =
        some (.ok (encEls.map CharElement.value))) ∧
    (∃ decEls,
      (VigenereCipher.new abCipher.charset).decrypt CharElement.index
        [CharElement.new 'A' 0, CharElement.new 'B' 1] [CharElement.new 'B' 1] =
        some decEls ∧
      abCipher.decrypt "AB".toList "B".toList =
        some (.ok (decEls.map CharElement.value))) :=
  string_refines_generic "AB".toList "AB".toList "B".toList abCipher
    [CharElement.new 'A' 0, CharElement.new 'B' 1] [CharElement.new 'B' 1]
    (by rfl) (by rfl) (by rfl) (by decide)
